import Mathlib

/-!
Verification of the copyright-header checker (check_copyright.py).

The script's pure core is embedded shallowly:
* Python `str` is modelled as `List Char` (wrapped in `String` at the interfaces);
* `"%d" % n` is `natDigits n`;
* the two `re.findall` calls inside `parse_years_string` are modelled by a
  character-level tokenizer (`tokenize`) plus extraction functions
  (`singlesAux` for the pattern  digits not adjacent to a hyphen or digit,
  `findRanges` for the pattern  digits-digits );
* `CURRENT_YEAR` (read from the clock at process start) is passed explicitly
  as a `year : Nat` parameter;
* regex character classes (`\d`, `\w`, the target class of the copyright
  pattern) are taken over ASCII, matching the script's intended inputs.
-/

namespace CheckCopyright

/-- ASCII digit test: the regex class matching a decimal digit character. -/
def isDig (c : Char) : Bool := decide (48 ≤ c.toNat) && decide (c.toNat ≤ 57)

/-- The decimal digit character for a value below ten (the last clause is
only ever reached at argument 9 in this development). -/
def digitChar : Nat → Char
  | 0 => '0' | 1 => '1' | 2 => '2' | 3 => '3' | 4 => '4'
  | 5 => '5' | 6 => '6' | 7 => '7' | 8 => '8' | _ => '9'

/-- Numeric value of a digit string, folding left as `int(x)` does. -/
def digitsToNat (l : List Char) : Nat := l.foldl (fun a c => 10 * a + (c.toNat - 48)) 0

/-- Fuel-driven decimal rendering; the fuel only bounds the recursion depth. -/
def natDigitsAux : Nat → Nat → List Char
  | 0, _ => []
  | f + 1, n => if n < 10 then [digitChar n] else natDigitsAux f (n / 10) ++ [digitChar (n % 10)]

/-- Decimal rendering of a natural number, the embedding of Python `"%d" % n`. -/
def natDigits (n : Nat) : List Char := natDigitsAux (n + 1) n

theorem natDigitsAux_stable : ∀ f g n, n < f → n < g → natDigitsAux f n = natDigitsAux g n := by
  intro f
  induction f with
  | zero => intro g n h; omega
  | succ f ih =>
    intro g n hf hg
    match g with
    | 0 => omega
    | g + 1 =>
      simp only [natDigitsAux]
      by_cases h10 : n < 10
      · simp [h10]
      · have hdiv : n / 10 < n := Nat.div_lt_self (by omega) (by omega)
        simp only [h10, if_false]
        rw [ih g (n / 10) (by omega) (by omega)]

theorem natDigits_eq (n : Nat) :
    natDigits n = if n < 10 then [digitChar n] else natDigits (n / 10) ++ [digitChar (n % 10)] := by
  unfold natDigits
  rw [natDigitsAux]
  by_cases h10 : n < 10
  · simp [h10]
  · have hdiv : n / 10 < n := Nat.div_lt_self (by omega) (by omega)
    simp only [h10, if_false]
    rw [natDigitsAux_stable n (n / 10 + 1) (n / 10) (by omega) (by omega)]

theorem digitChar_toNat : ∀ d, d < 10 → (digitChar d).toNat = 48 + d := by
  intro d h
  interval_cases d <;> rfl

theorem isDig_digitChar : ∀ d, d < 10 → isDig (digitChar d) = true := by
  intro d h
  interval_cases d <;> rfl

theorem natDigits_ne_nil (n : Nat) : natDigits n ≠ [] := by
  rw [natDigits_eq]
  by_cases h10 : n < 10 <;> simp [h10]

theorem natDigits_all_digit (n : Nat) : ∀ c ∈ natDigits n, isDig c = true := by
  induction n using Nat.strong_induction_on with
  | _ n ih =>
    rw [natDigits_eq]
    by_cases h10 : n < 10
    · simp only [h10, if_true, List.mem_singleton]
      rintro c rfl
      exact isDig_digitChar n h10
    · have hdiv : n / 10 < n := Nat.div_lt_self (by omega) (by omega)
      simp only [h10, if_false, List.mem_append, List.mem_singleton]
      rintro c (hc | rfl)
      · exact ih (n / 10) hdiv c hc
      · exact isDig_digitChar (n % 10) (Nat.mod_lt n (by omega))

theorem digitsToNat_append_digit (l : List Char) (c : Char) :
    digitsToNat (l ++ [c]) = 10 * digitsToNat l + (c.toNat - 48) := by
  simp [digitsToNat, List.foldl_append]

theorem digitsToNat_natDigits (n : Nat) : digitsToNat (natDigits n) = n := by
  induction n using Nat.strong_induction_on with
  | _ n ih =>
    rw [natDigits_eq]
    by_cases h10 : n < 10
    · simp only [h10, if_true]
      simp [digitsToNat, digitChar_toNat n h10]
    · have hdiv : n / 10 < n := Nat.div_lt_self (by omega) (by omega)
      simp only [h10, if_false]
      rw [digitsToNat_append_digit, ih (n / 10) hdiv, digitChar_toNat (n % 10) (Nat.mod_lt n (by omega))]
      omega

theorem natDigits_ends_digit (n : Nat) : ∃ l c, natDigits n = l ++ [c] ∧ isDig c = true := by
  rw [natDigits_eq]
  by_cases h10 : n < 10
  · exact ⟨[], digitChar n, by simp [h10], isDig_digitChar n h10⟩
  · exact ⟨natDigits (n / 10), digitChar (n % 10), by simp [h10],
      isDig_digitChar (n % 10) (Nat.mod_lt n (by omega))⟩

theorem isDig_not_special {c : Char} (h : isDig c = true) :
    c ≠ '-' ∧ c ≠ ',' ∧ c ≠ ' ' ∧ c ≠ '\n' := by
  refine ⟨?_, ?_, ?_, ?_⟩ <;> rintro rfl <;> simp [isDig] at h

/-! ### The tokenizer underlying `parse_years_string`

`re.findall(r"(?<![-\d])\d+(?![-\d])", s)` collects the maximal digit runs of
`s` that are not adjacent to a hyphen (adjacency to a digit is impossible for
a maximal run), and `re.findall(r"\d+-\d+", s)` collects, scanning left to
right without overlap, pairs of digit runs joined by a single hyphen.  Both
are computed here from the list of maximal digit runs and remaining single
characters of `s`. -/

inductive Tok where
  | digits : List Char → Tok
  | other : Char → Tok
deriving DecidableEq

/-- Decompose a string into maximal digit runs and single non-digit characters. -/
def tokenize : List Char → List Tok
  | [] => []
  | c :: rest =>
    if isDig c then
      match tokenize rest with
      | Tok.digits d :: ts => Tok.digits (c :: d) :: ts
      | ts => Tok.digits [c] :: ts
    else Tok.other c :: tokenize rest

/-- Lookahead `(?![-\d])` at a token boundary: the next token must not be a
hyphen (a digit run is impossible right after a maximal digit run). -/
def nextNotHyphen : List Tok → Bool
  | Tok.other c :: _ => !(c == '-')
  | _ => true

/-- Standalone years: digit runs whose neighbours are not hyphens.  The flag
records whether the preceding character was a hyphen or a digit (the negative
lookbehind `(?<![-\d])`). -/
def singlesAux : Bool → List Tok → List (List Char)
  | _, [] => []
  | blocked, Tok.digits d :: ts =>
    (if !blocked && nextNotHyphen ts then [d] else []) ++ singlesAux true ts
  | _, Tok.other c :: ts => singlesAux (c == '-') ts

/-- Ranges: non-overlapping left-to-right occurrences of  digits-digits . -/
def findRanges : List Tok → List (List Char × List Char)
  | Tok.digits d1 :: Tok.other '-' :: Tok.digits d2 :: ts => (d1, d2) :: findRanges ts
  | _ :: ts => findRanges ts
  | [] => []

/-- Range check `1900 < y <= current_year` used by `parse_years_string`. -/
def yearInRange (year y : Nat) : Bool := decide (1900 < y) && decide (y ≤ year)

/-- Embedding of `parse_years_string`: standalone years, then expanded ranges
(`range(a, b+1)`), then the in-range filter, deduplication (`set(...)`) and
ascending sort. -/
def parse_years_string (year : Nat) (s : String) : List Nat :=
  List.insertionSort (· ≤ ·)
    ((((singlesAux false (tokenize s.data)).map digitsToNat ++
        ((findRanges (tokenize s.data)).map
          (fun r => List.range' (digitsToNat r.1) (digitsToNat r.2 + 1 - digitsToNat r.1))).flatten).filter
      (yearInRange year)).dedup)

/-! ### `generate_years_string` -/

/-- The loop body of `generate_years_string`: `prev` is the previously visited
year, `lastInc` the `last_element_was_incremental` flag; the final element of
an incremental run is rendered as `-y`, a break emits either `-prev, ` or
`, ` followed by the new year. -/
def genAux (prev : Nat) (lastInc : Bool) : List Nat → List Char
  | [] => []
  | [y] =>
    if y = prev + 1 then '-' :: natDigits y
    else (if lastInc then '-' :: (natDigits prev ++ [',', ' ']) else [',', ' ']) ++ natDigits y
  | y :: rest =>
    if y = prev + 1 then genAux y true rest
    else ((if lastInc then '-' :: (natDigits prev ++ [',', ' ']) else [',', ' ']) ++ natDigits y)
      ++ genAux y false rest

/-- Character-level `generate_years_string`. -/
def genChars : List Nat → List Char
  | [] => []
  | y :: rest => natDigits y ++ genAux y false rest

/-- Embedding of `generate_years_string`. -/
def generate_years_string (years : List Nat) : String := String.mk (genChars years)

/-! ### Tokenizer lemmas -/

/-- The first character of `l`, if any, is not a digit. -/
def headNotDigit : List Char → Prop
  | [] => True
  | c :: _ => isDig c = false

theorem tokenize_cons_other {c : Char} {l : List Char} (h : isDig c = false) :
    tokenize (c :: l) = Tok.other c :: tokenize l := by
  simp [tokenize, h]

theorem tokenize_head_other {l : List Char} (h : headNotDigit l) :
    tokenize l = [] ∨ ∃ c ts, tokenize l = Tok.other c :: ts := by
  cases l with
  | nil => exact Or.inl rfl
  | cons c rest => exact Or.inr ⟨c, tokenize rest, tokenize_cons_other h⟩

theorem tokenize_digits_append {d l : List Char} (hd : d ≠ [])
    (hdig : ∀ x ∈ d, isDig x = true) (hl : headNotDigit l) :
    tokenize (d ++ l) = Tok.digits d :: tokenize l := by
  induction d with
  | nil => exact absurd rfl hd
  | cons x d ih =>
    have hx : isDig x = true := hdig x (List.mem_cons_self x d)
    cases d with
    | nil =>
      rw [List.singleton_append]
      conv_lhs => rw [tokenize]
      simp only [hx, if_true]
      rcases tokenize_head_other hl with h | ⟨c, ts, h⟩ <;> rw [h]
    | cons y d' =>
      have ih' := ih (by simp) (fun c hc => hdig c (List.mem_cons_of_mem x hc))
      rw [List.cons_append]
      conv_lhs => rw [tokenize]
      simp only [hx, if_true]
      rw [ih']

theorem tokenize_others_append {p l : List Char} (hp : ∀ c ∈ p, isDig c = false) :
    tokenize (p ++ l) = p.map Tok.other ++ tokenize l := by
  induction p with
  | nil => simp
  | cons c p ih =>
    have hc : isDig c = false := hp c (List.mem_cons_self c p)
    simp only [List.cons_append, List.map_cons]
    rw [tokenize_cons_other hc, ih (fun x hx => hp x (List.mem_cons_of_mem c hx))]

/-! ### Decomposition of a year list into maximal runs of consecutive years -/

/-- Accumulate the maximal runs: `start` opens the current run, `cur` is its
last element so far. -/
def goRuns (start cur : Nat) : List Nat → List (Nat × Nat)
  | [] => [(start, cur)]
  | y :: rest => if y = cur + 1 then goRuns start y rest else (start, cur) :: goRuns y y rest

/-- Maximal runs of consecutive years in a list. -/
def runsOf : List Nat → List (Nat × Nat)
  | [] => []
  | y :: rest => goRuns y y rest

/-- Spec rendering of one run: a single year, or `start-end` for length two or
more. -/
def renderRun (r : Nat × Nat) : List Char :=
  if r.1 = r.2 then natDigits r.1 else natDigits r.1 ++ '-' :: natDigits r.2

/-- Spec rendering of a run list, comma-space separated. -/
def renderRuns : List (Nat × Nat) → List Char
  | [] => []
  | [r] => renderRun r
  | r :: rs => renderRun r ++ ',' :: ' ' :: renderRuns rs

theorem goRuns_ne_nil (start cur : Nat) (l : List Nat) : goRuns start cur l ≠ [] := by
  induction l generalizing start cur with
  | nil => simp [goRuns]
  | cons y rest ih =>
    simp only [goRuns]
    by_cases h : y = cur + 1 <;> simp [h, ih]

theorem renderRuns_cons {r : Nat × Nat} {rs : List (Nat × Nat)} (h : rs ≠ []) :
    renderRuns (r :: rs) = renderRun r ++ ',' :: ' ' :: renderRuns rs := by
  cases rs with
  | nil => exact absurd rfl h
  | cons r' rs' => rfl

theorem genAux_renderRuns : ∀ rest start cur, rest ≠ [] → start ≤ cur →
    natDigits start ++ genAux cur (decide (start ≠ cur)) rest = renderRuns (goRuns start cur rest) := by
  intro rest
  induction rest with
  | nil => intro start cur h; exact absurd rfl h
  | cons y ys ih =>
    intro start cur _ hle
    cases ys with
    | nil =>
      by_cases hinc : y = cur + 1
      · have hne : ¬ start = cur + 1 := by omega
        simp [genAux, goRuns, renderRuns, renderRun, hinc, hne]
      · by_cases heq : start = cur
        · subst heq
          simp [genAux, goRuns, renderRuns, renderRun, hinc, renderRuns_cons, goRuns_ne_nil]
        · simp [genAux, goRuns, renderRuns, renderRun, hinc, heq, renderRuns_cons, goRuns_ne_nil]
    | cons z zs =>
      by_cases hinc : y = cur + 1
      · subst hinc
        have hne : decide (start ≠ cur + 1) = true := by simp; omega
        have hthis := ih start (cur + 1) (by simp) (by omega)
        rw [hne] at hthis
        rw [show genAux cur (decide (start ≠ cur)) ((cur + 1) :: z :: zs)
              = genAux (cur + 1) true (z :: zs) by simp [genAux]]
        rw [show goRuns start cur ((cur + 1) :: z :: zs)
              = goRuns start (cur + 1) (z :: zs) by simp [goRuns]]
        exact hthis
      · have hyy : decide (y ≠ y) = false := by simp
        have ihy := ih y y (by simp) (le_refl y)
        rw [hyy] at ihy
        have hgr : goRuns start cur (y :: z :: zs) = (start, cur) :: goRuns y y (z :: zs) := by
          simp [goRuns, hinc]
        rw [hgr, renderRuns_cons (goRuns_ne_nil y y (z :: zs)), ← ihy]
        by_cases heq : start = cur
        · subst heq
          simp [genAux, hinc, renderRun]
        · have hb : decide (start ≠ cur) = true := by simp [heq]
          rw [hb]
          simp [genAux, hinc, renderRun, heq]

theorem genChars_eq_renderRuns (ys : List Nat) : genChars ys = renderRuns (runsOf ys) := by
  cases ys with
  | nil => rfl
  | cons y rest =>
    cases rest with
    | nil => simp [genChars, genAux, runsOf, goRuns, renderRuns, renderRun]
    | cons z zs =>
      have h := genAux_renderRuns (z :: zs) y y (by simp) (le_refl y)
      have hd : decide (y ≠ y) = false := by simp
      rw [hd] at h
      simpa [genChars, runsOf] using h

/-! ### Extraction of singles and ranges from a rendered run list -/

theorem tokenize_digits_only {d : List Char} (hd : d ≠ []) (hdig : ∀ x ∈ d, isDig x = true) :
    tokenize d = [Tok.digits d] := by
  have h := tokenize_digits_append hd hdig (l := []) trivial
  simpa using h

theorem renderRun_eq (a : Nat) : renderRun (a, a) = natDigits a := by
  simp [renderRun]

theorem renderRun_ne {a b : Nat} (hab : a ≠ b) :
    renderRun (a, b) = natDigits a ++ '-' :: natDigits b := by
  simp [renderRun, hab]

theorem tok_run_append_eq (a : Nat) (l : List Char) (hl : headNotDigit l) :
    tokenize (renderRun (a, a) ++ l) = Tok.digits (natDigits a) :: tokenize l := by
  rw [renderRun_eq, tokenize_digits_append (natDigits_ne_nil a) (natDigits_all_digit a) hl]

theorem tok_run_append_ne {a b : Nat} (hab : a ≠ b) (l : List Char) (hl : headNotDigit l) :
    tokenize (renderRun (a, b) ++ l) =
      Tok.digits (natDigits a) :: Tok.other '-' :: Tok.digits (natDigits b) :: tokenize l := by
  rw [renderRun_ne hab, List.append_assoc, List.cons_append,
    tokenize_digits_append (natDigits_ne_nil a) (natDigits_all_digit a)
      (by simp [headNotDigit, isDig]),
    tokenize_cons_other (by simp [isDig]),
    tokenize_digits_append (natDigits_ne_nil b) (natDigits_all_digit b) hl]

theorem extract_renderRuns (runs : List (Nat × Nat)) :
    singlesAux false (tokenize (renderRuns runs)) =
      runs.filterMap (fun r => if r.1 = r.2 then some (natDigits r.1) else none)
    ∧ findRanges (tokenize (renderRuns runs)) =
      runs.filterMap (fun r => if r.1 = r.2 then none else some (natDigits r.1, natDigits r.2)) := by
  induction runs with
  | nil => exact ⟨rfl, rfl⟩
  | cons r rs ih =>
    obtain ⟨a, b⟩ := r
    cases rs with
    | nil =>
      by_cases hab : a = b
      · subst hab
        have h := tok_run_append_eq a [] trivial
        rw [List.append_nil] at h
        rw [show renderRuns [(a, a)] = renderRun (a, a) from rfl, h]
        exact ⟨by simp [singlesAux, nextNotHyphen, tokenize], by simp [findRanges, tokenize]⟩
      · have h := tok_run_append_ne hab [] trivial
        rw [List.append_nil] at h
        rw [show renderRuns [(a, b)] = renderRun (a, b) from rfl, h]
        refine ⟨by simp [singlesAux, nextNotHyphen, tokenize, hab], ?_⟩
        simp only [tokenize, findRanges, List.filterMap_cons, List.filterMap_nil]
        simp [hab]
    | cons r' rs' =>
      rw [renderRuns_cons (by simp)]
      obtain ⟨ihS, ihR⟩ := ih
      by_cases hab : a = b
      · subst hab
        rw [tok_run_append_eq a (',' :: ' ' :: renderRuns (r' :: rs'))
          (by simp [headNotDigit, isDig])]
        rw [tokenize_cons_other (by simp [isDig]), tokenize_cons_other (by simp [isDig])]
        constructor
        · simp [singlesAux, nextNotHyphen, ihS]
        · simp [findRanges, ihR]
      · rw [tok_run_append_ne hab (',' :: ' ' :: renderRuns (r' :: rs'))
          (by simp [headNotDigit, isDig])]
        rw [tokenize_cons_other (by simp [isDig]), tokenize_cons_other (by simp [isDig])]
        constructor
        · simp [singlesAux, nextNotHyphen, ihS, hab]
        · simp [findRanges, ihR, hab]

/-! ### Reconstruction: expanding the runs of a strictly ascending list -/

/-- Inclusive expansion of a run, the years `r.1, ..., r.2`. -/
def expandRun (r : Nat × Nat) : List Nat := List.range' r.1 (r.2 + 1 - r.1)

theorem goRuns_expand : ∀ rest start cur, start ≤ cur → List.Chain (· < ·) cur rest →
    ((goRuns start cur rest).map expandRun).flatten = List.range' start (cur + 1 - start) ++ rest := by
  intro rest
  induction rest with
  | nil => intro start cur _ _; simp [goRuns, expandRun]
  | cons y ys ih =>
    intro start cur hle hchain
    rw [List.chain_cons] at hchain
    obtain ⟨hlt, hchain⟩ := hchain
    by_cases hinc : y = cur + 1
    · rw [show goRuns start cur (y :: ys) = goRuns start y ys by simp [goRuns, hinc]]
      rw [ih start y (by omega) hchain]
      have h1 : y + 1 - start = (cur + 1 - start) + 1 := by omega
      have h2 : start + (cur + 1 - start) = y := by omega
      rw [h1, List.range'_1_concat, h2, List.append_assoc, List.singleton_append]
    · rw [show goRuns start cur (y :: ys) = (start, cur) :: goRuns y y ys by simp [goRuns, hinc]]
      rw [List.map_cons, List.flatten_cons, ih y y (le_refl y) hchain]
      have h1 : y + 1 - y = 1 := by omega
      rw [h1, List.range'_one, List.singleton_append]
      rfl

theorem runsOf_expand (ys : List Nat) (h : List.Chain' (· < ·) ys) :
    ((runsOf ys).map expandRun).flatten = ys := by
  cases ys with
  | nil => rfl
  | cons y rest =>
    have hc : List.Chain (· < ·) y rest := h
    rw [show runsOf (y :: rest) = goRuns y y rest from rfl]
    rw [goRuns_expand rest y y (le_refl y) hc]
    have h1 : y + 1 - y = 1 := by omega
    rw [h1, List.range'_one, List.singleton_append]

theorem singles_ranges_perm (runs : List (Nat × Nat)) :
    List.Perm
      (runs.filterMap (fun r => if r.1 = r.2 then some r.1 else none) ++
        (runs.filterMap (fun r => if r.1 = r.2 then none else some (expandRun r))).flatten)
      ((runs.map expandRun).flatten) := by
  induction runs with
  | nil => simp
  | cons r rs ih =>
    by_cases hab : r.1 = r.2
    · have he : expandRun r = [r.1] := by
        have h1 : r.2 + 1 - r.1 = 1 := by omega
        simp [expandRun, h1]
      simp only [List.filterMap_cons, hab, if_pos rfl, List.map_cons, List.flatten_cons, he]
      simpa using ih.cons r.1
    · simp only [List.filterMap_cons, hab, if_neg hab, ite_false, List.map_cons,
        List.flatten_cons]
      refine List.Perm.trans ?_ (ih.append_left (expandRun r))
      rw [← List.append_assoc, ← List.append_assoc]
      exact List.perm_append_comm.append_right _

/-! ### The four claims about the year-string codec -/

/-- Claim C1: for every deduplicated ascending list of years, all strictly
between 1900 and at most the current year, parsing the rendered string
recovers exactly the original list. -/
theorem parse_generate_roundtrip (year : Nat) (ys : List Nat)
    (hasc : List.Pairwise (· < ·) ys) (hrange : ∀ a ∈ ys, 1900 < a ∧ a ≤ year) :
    parse_years_string year (generate_years_string ys) = ys := by
  have hchain : List.Chain' (· < ·) ys := List.chain'_iff_pairwise.mpr hasc
  have hdata : (generate_years_string ys).data = renderRuns (runsOf ys) := by
    rw [show (generate_years_string ys).data = genChars ys from rfl, genChars_eq_renderRuns]
  unfold parse_years_string
  rw [hdata]
  obtain ⟨hS, hR⟩ := extract_renderRuns (runsOf ys)
  rw [hS, hR, List.map_filterMap, List.map_filterMap]
  rw [List.filterMap_congr (g := fun r : Nat × Nat => if r.1 = r.2 then some r.1 else none)
    (fun r _ => by by_cases h : r.1 = r.2 <;> simp [h, digitsToNat_natDigits])]
  rw [List.filterMap_congr (g := fun r : Nat × Nat => if r.1 = r.2 then none else some (expandRun r))
    (fun r _ => by by_cases h : r.1 = r.2 <;> simp [h, digitsToNat_natDigits, expandRun])]
  have hperm :
      ((runsOf ys).filterMap (fun r => if r.1 = r.2 then some r.1 else none) ++
        ((runsOf ys).filterMap (fun r => if r.1 = r.2 then none else some (expandRun r))).flatten).Perm
        ys := by
    have h := singles_ranges_perm (runsOf ys)
    rw [runsOf_expand ys hchain] at h
    exact h
  have hnd : ys.Nodup := List.Pairwise.imp (fun h => ne_of_lt h) hasc
  rw [List.filter_eq_self.mpr (fun a ha => by
    have hm := hrange a (hperm.subset ha)
    simp [yearInRange]
    omega)]
  rw [List.dedup_eq_self.mpr (hperm.nodup_iff.mpr hnd)]
  exact List.eq_of_perm_of_sorted ((List.perm_insertionSort _ _).trans hperm)
    (List.sorted_insertionSort _ _)
    (List.Pairwise.imp (fun h => le_of_lt h) hasc)

/-- Witness for C1 at the spec's own example list, with current year 2024. -/
theorem parse_generate_roundtrip_witness :
    List.Pairwise (· < ·) [1991, 2001, 2002, 2003, 2006, 2007]
    ∧ (∀ a ∈ [1991, 2001, 2002, 2003, 2006, 2007], 1900 < a ∧ a ≤ 2024)
    ∧ parse_years_string 2024 (generate_years_string [1991, 2001, 2002, 2003, 2006, 2007])
        = [1991, 2001, 2002, 2003, 2006, 2007] :=
  ⟨by decide, by decide,
    parse_generate_roundtrip 2024 [1991, 2001, 2002, 2003, 2006, 2007] (by decide) (by decide)⟩

/-- Claim C3: `generate_years_string` renders the maximal runs of consecutive
years, comma-space separated, collapsing every run of length at least two to
`start-end`; in particular the two example renderings hold. -/
theorem generate_years_compaction :
    (∀ ys : List Nat, generate_years_string ys = String.mk (renderRuns (runsOf ys)))
    ∧ generate_years_string [1991, 2001, 2002, 2003, 2006, 2007] = "1991, 2001-2003, 2006-2007"
    ∧ generate_years_string [2020, 2021] = "2020-2021" :=
  ⟨fun ys => congrArg String.mk (genChars_eq_renderRuns ys), by decide, by decide⟩

/-- Claim C6: on every input string the parser yields an ascending list
without duplicates whose members all lie in `1900 < y <= current_year`, and
the spec's filtering example holds. -/
theorem parse_years_wellformed (year : Nat) (s : String) :
    List.Pairwise (· < ·) (parse_years_string year s)
    ∧ (∀ a ∈ parse_years_string year s, 1900 < a ∧ a ≤ year)
    ∧ parse_years_string 2024 "1850, 2024, 3000" = [2024] := by
  refine ⟨?_, ?_, by decide⟩
  · have hsorted := List.sorted_insertionSort (· ≤ ·)
      ((((singlesAux false (tokenize s.data)).map digitsToNat ++
          ((findRanges (tokenize s.data)).map
            (fun r => List.range' (digitsToNat r.1) (digitsToNat r.2 + 1 - digitsToNat r.1))).flatten).filter
        (yearInRange year)).dedup)
    have hnd : (parse_years_string year s).Nodup := by
      unfold parse_years_string
      exact (List.perm_insertionSort _ _).nodup_iff.mpr (List.nodup_dedup _)
    exact List.Pairwise.imp₂ (fun a b hle hne => lt_of_le_of_ne hle hne) hsorted hnd
  · intro a ha
    unfold parse_years_string at ha
    rw [List.mem_insertionSort] at ha
    have := List.of_mem_filter (List.mem_dedup.mp ha)
    simp [yearInRange] at this
    omega

/-- Claim C10: a reversed range `Y1-Y2` with `Y1 > Y2` (both in range)
contributes nothing: the range expands to no years and both hyphen-adjacent
digit runs are excluded from the standalone extraction. -/
theorem reversed_range_empty (year y1 y2 : Nat) (hgt : y2 < y1)
    (h1 : 1900 < y1 ∧ y1 ≤ year) (h2 : 1900 < y2 ∧ y2 ≤ year) :
    parse_years_string year (String.mk (natDigits y1 ++ '-' :: natDigits y2)) = [] := by
  unfold parse_years_string
  rw [show (String.mk (natDigits y1 ++ '-' :: natDigits y2)).data
      = natDigits y1 ++ '-' :: natDigits y2 from rfl]
  rw [tokenize_digits_append (natDigits_ne_nil y1) (natDigits_all_digit y1)
    (by simp [headNotDigit, isDig])]
  rw [tokenize_cons_other (by simp [isDig])]
  rw [tokenize_digits_only (natDigits_ne_nil y2) (natDigits_all_digit y2)]
  have h0 : digitsToNat (natDigits y2) + 1 - digitsToNat (natDigits y1) = 0 := by
    rw [digitsToNat_natDigits, digitsToNat_natDigits]
    omega
  simp [singlesAux, nextNotHyphen, findRanges, h0]

/-! ### Character classes and case-insensitive matching for the regexes -/

/-- Word characters of `\b` over ASCII: letters, digits, underscore. -/
def isWordChar (c : Char) : Bool :=
  (decide (65 ≤ c.toNat) && decide (c.toNat ≤ 90)) ||
  (decide (97 ≤ c.toNat) && decide (c.toNat ≤ 122)) ||
  isDig c || (c == '_')

/-- ASCII lower-casing on code points, for `re.IGNORECASE`. -/
def asciiLowerNat (n : Nat) : Nat := if 65 ≤ n ∧ n ≤ 90 then n + 32 else n

/-- Case-insensitive character comparison. -/
def ciEq (p c : Char) : Bool := asciiLowerNat p.toNat == asciiLowerNat c.toNat

/-- Case-insensitively, does `s` start with the pattern characters? -/
def ciStarts : List Char → List Char → Bool
  | [], _ => true
  | _ :: _, [] => false
  | p :: ps, c :: cs => ciEq p c && ciStarts ps cs

/-- The literal characters of the `Copyright` keyword of both copyright regexes. -/
def copyrightChars : List Char := ['c', 'o', 'p', 'y', 'r', 'i', 'g', 'h', 't']

/-- Word-boundary `\b` before a position: start of text or a non-word
character just before (the following character is always a word character
where this is used). -/
def boundaryOk : Option Char → Bool
  | none => true
  | some c => !isWordChar c

/-- Does `s` start with the exact character sequence `pat`? -/
def startsSeq : List Char → List Char → Bool
  | [], _ => true
  | _ :: _, [] => false
  | p :: ps, c :: cs => (p == c) && startsSeq ps cs

/-- Does `l` contain the exact character sequence `pat`? -/
def containsSeq (pat : List Char) : List Char → Bool
  | [] => pat.isEmpty
  | c :: rest => startsSeq pat (c :: rest) || containsSeq pat rest

/-- Does `l` contain `pat` case-insensitively? -/
def containsCI (pat : List Char) : List Char → Bool
  | [] => pat.isEmpty
  | c :: rest => ciStarts pat (c :: rest) || containsCI pat rest

/-! ### The per-line scanner (COPYRIGHT_YEAR_REGEX and SPDX_REGEX) -/

/-- Limit on the number of lines searched at the top of a file. -/
def MAX_SEARCH_LINES : Nat := 20

/-- Everything before the first newline; `.` in the regexes never crosses it. -/
def firstLine (l : List Char) : List Char := l.takeWhile (fun c => !(c == '\n'))

/-- Scan for `\bCOPYRIGHT` (case-insensitive) followed, anywhere later in the
line, by the decimal digits of the current year: the matcher behind
`COPYRIGHT_YEAR_REGEX.match(line)`. -/
def copyrightLineAux (yd : List Char) : Option Char → List Char → Bool
  | _, [] => false
  | prev, c :: rest =>
    (boundaryOk prev && ciStarts copyrightChars (c :: rest) &&
      containsSeq yd ((c :: rest).drop 9))
      || copyrightLineAux yd (some c) rest

/-- Embedding of `COPYRIGHT_YEAR_REGEX.match(line)` as a Boolean. -/
def copyrightLineMatch (year : Nat) (line : List Char) : Bool :=
  copyrightLineAux (natDigits year) none (firstLine line)

/-- The literal characters of the SPDX pattern, lower-cased. -/
def spdxChars : List Char :=
  ['s', 'p', 'd', 'x', '-', 'l', 'i', 'c', 'e', 'n', 's', 'e', '-',
   'i', 'd', 'e', 'n', 't', 'i', 'f', 'i', 'e', 'r', ':', ' ', 'm', 'i', 't']

/-- Embedding of `SPDX_REGEX.match(line)` as a Boolean. -/
def spdxLineMatch (line : List Char) : Bool := containsCI spdxChars (firstLine line)

/-- The scanning loop over enumerated lines, stopping once the line index
exceeds `MAX_SEARCH_LINES`. -/
def scanAux (year : Nat) : Nat → Bool → Bool → List (List Char) → Bool × Bool
  | _, cf, sf, [] => (cf, sf)
  | n, cf, sf, l :: rest =>
    if MAX_SEARCH_LINES < n then (cf, sf)
    else scanAux year (n + 1) (cf || copyrightLineMatch year l) (sf || spdxLineMatch l) rest

/-- Per-file scan result `(copyright_found, spdx_found)`. -/
def scanFile (year : Nat) (lines : List (List Char)) : Bool × Bool :=
  scanAux year 0 false false lines

/-- Python text-file line iteration: split after every newline, keeping it;
no empty final line when the text ends with a newline. -/
def splitLines : List Char → List (List Char)
  | [] => []
  | c :: rest =>
    if c = '\n' then ['\n'] :: splitLines rest
    else
      match splitLines rest with
      | [] => [[c]]
      | l :: ls => (c :: l) :: ls

/-! ### The driver loop over the command-line files -/

/-- Observable outcome of a run: the two failure lists, whether each of the
two stderr diagnostics is printed, and the process exit status. -/
structure DriverResult where
  badCopyright : List String
  badSpdx : List String
  stderrCopyrightMsg : Bool
  stderrSpdxMsg : Bool
  exitCode : Nat
deriving DecidableEq

/-- Files failing the copyright check, in command-line order. -/
def bad_copyright_files (year : Nat) (files : List (String × String)) : List String :=
  (files.filter fun f => !(scanFile year (splitLines f.2.data)).1).map Prod.fst

/-- Files failing the SPDX check, in command-line order. -/
def bad_spdx_files (year : Nat) (files : List (String × String)) : List String :=
  (files.filter fun f => !(scanFile year (splitLines f.2.data)).2).map Prod.fst

/-- The module-level loop and reporting: scan each file, collect the two
failure lists, print a diagnostic per non-empty list, exit 1 if either is
non-empty and 0 otherwise. -/
def runDriver (year : Nat) (files : List (String × String)) : DriverResult :=
  { badCopyright := bad_copyright_files year files
    badSpdx := bad_spdx_files year files
    stderrCopyrightMsg := !(bad_copyright_files year files).isEmpty
    stderrSpdxMsg := !(bad_spdx_files year files).isEmpty
    exitCode :=
      if !(bad_copyright_files year files).isEmpty || !(bad_spdx_files year files).isEmpty
      then 1 else 0 }

/-- Claim C4: the scan result only depends on the lines at 0-based indices
0 through `MAX_SEARCH_LINES` (that is, 0 through 20): lines from index 21 on
never affect either Boolean. -/
theorem scan_bounded (year : Nat) (lines : List (List Char)) :
    scanFile year lines = scanFile year (lines.take (MAX_SEARCH_LINES + 1)) := by
  have key : ∀ (ls : List (List Char)) (n : Nat) (cf sf : Bool),
      scanAux year n cf sf ls = scanAux year n cf sf (ls.take (MAX_SEARCH_LINES + 1 - n)) := by
    intro ls
    induction ls with
    | nil => intro n cf sf; simp
    | cons l rest ih =>
      intro n cf sf
      by_cases h : MAX_SEARCH_LINES < n
      · have h0 : MAX_SEARCH_LINES + 1 - n = 0 := by omega
        rw [h0]
        simp [scanAux, h]
      · have h1 : MAX_SEARCH_LINES + 1 - n = (MAX_SEARCH_LINES + 1 - (n + 1)) + 1 := by omega
        rw [h1, List.take_succ_cons]
        simp only [scanAux, h, if_false]
        exact ih (n + 1) _ _
  exact key lines 0 false false

/-- Claim C5: exit status 0 exactly when every file passes both checks (both
failure lists empty), exit status 1 otherwise, and each stderr diagnostic is
printed exactly when its failure list is non-empty. -/
theorem driver_exit_spec (year : Nat) (files : List (String × String)) :
    ((runDriver year files).exitCode = 0 ↔
      (runDriver year files).badCopyright = [] ∧ (runDriver year files).badSpdx = [])
    ∧ ((runDriver year files).exitCode = 0 ↔
        ∀ f ∈ files, (scanFile year (splitLines f.2.data)).1 = true
          ∧ (scanFile year (splitLines f.2.data)).2 = true)
    ∧ ((runDriver year files).exitCode = 0 ∨ (runDriver year files).exitCode = 1)
    ∧ ((runDriver year files).stderrCopyrightMsg = true ↔ (runDriver year files).badCopyright ≠ [])
    ∧ ((runDriver year files).stderrSpdxMsg = true ↔ (runDriver year files).badSpdx ≠ []) := by
  have hc0 : bad_copyright_files year files = [] ↔
      ∀ f ∈ files, (scanFile year (splitLines f.2.data)).1 = true := by
    unfold bad_copyright_files
    rw [List.map_eq_nil_iff, List.filter_eq_nil_iff]
    constructor
    · intro h f hf; simpa using h f hf
    · intro h f hf; simpa using h f hf
  have hs0 : bad_spdx_files year files = [] ↔
      ∀ f ∈ files, (scanFile year (splitLines f.2.data)).2 = true := by
    unfold bad_spdx_files
    rw [List.map_eq_nil_iff, List.filter_eq_nil_iff]
    constructor
    · intro h f hf; simpa using h f hf
    · intro h f hf; simpa using h f hf
  have p1 : (runDriver year files).exitCode = 0 ↔
      (runDriver year files).badCopyright = [] ∧ (runDriver year files).badSpdx = [] := by
    by_cases hbc : bad_copyright_files year files = [] <;>
      by_cases hbs : bad_spdx_files year files = [] <;>
      simp [runDriver, hbc, hbs]
  refine ⟨p1, p1.trans ?_, ?_, ?_, ?_⟩
  · constructor
    · rintro ⟨hbc, hbs⟩ f hf
      exact ⟨hc0.mp hbc f hf, hs0.mp hbs f hf⟩
    · intro h
      exact ⟨hc0.mpr (fun f hf => (h f hf).1), hs0.mpr (fun f hf => (h f hf).2)⟩
  · by_cases hbc : bad_copyright_files year files = [] <;>
      by_cases hbs : bad_spdx_files year files = [] <;>
      simp [runDriver, hbc, hbs]
  · rw [show (runDriver year files).stderrCopyrightMsg
        = !(bad_copyright_files year files).isEmpty from rfl,
      show (runDriver year files).badCopyright = bad_copyright_files year files from rfl]
    simp
  · rw [show (runDriver year files).stderrSpdxMsg
        = !(bad_spdx_files year files).isEmpty from rfl,
      show (runDriver year files).badSpdx = bad_spdx_files year files from rfl]
    simp

/-! ### The loose copyright pattern and `re.search` / `re.sub`

`PATTERN_COPYRIGHT` is `\bCopyright\b.*[0-9,)]` with `re.IGNORECASE`.
`tryMatchAt` decides whether a match starts at the current position (the
character before it is `prev`); the greedy `.*[0-9,)]` part extends to the
last digit/comma/closing-paren before the next newline.  `searchAux` scans
positions left to right, returning the text before the leftmost match, the
matched substring, and the text after it. -/

/-- The trailing character class `[0-9,)]`. -/
def isTarget (c : Char) : Bool := isDig c || (c == ',') || (c == ')')

/-- Word boundary after `Copyright`: end of text or a non-word character. -/
def afterBoundary : List Char → Bool
  | [] => true
  | c :: _ => !isWordChar c

/-- Split `l` just after its last target character; `none` if `l` has no
target character.  The first component is the greedy `.*[0-9,)]` match. -/
def greedySplit : List Char → Option (List Char × List Char)
  | [] => none
  | c :: rest =>
    match greedySplit rest with
    | some (u, v) => some (c :: u, v)
    | none => if isTarget c then some ([c], rest) else none

/-- Attempt to match `\bCopyright\b.*[0-9,)]` (case-insensitively) starting
exactly at the head of `s`, the character before which is `prev`.  On success
returns the matched substring and the remainder of `s`. -/
def tryMatchAt (prev : Option Char) (s : List Char) : Option (List Char × List Char) :=
  if boundaryOk prev && ciStarts copyrightChars s && afterBoundary (s.drop 9) then
    match greedySplit (firstLine (s.drop 9)) with
    | some (u, _) => some (s.take 9 ++ u, s.drop (9 + u.length))
    | none => none
  else none

/-- Left-to-right scan for the leftmost match of the loose copyright pattern. -/
def searchAux (prev : Option Char) : List Char → Option (List Char × List Char × List Char)
  | [] => none
  | c :: cs =>
    match tryMatchAt prev (c :: cs) with
    | some (m, rest) => some ([], m, rest)
    | none =>
      match searchAux (some c) cs with
      | some (b, m, a) => some (c :: b, m, a)
      | none => none

/-- Embedding of `re.search(PATTERN_COPYRIGHT, s)` as the decomposition
(before, match, after) of `s`, if any match exists. -/
def searchCopyright (s : List Char) : Option (List Char × List Char × List Char) :=
  searchAux none s

/-- The fixed replacement header text `Copyright (c) ` in front of the
rendered years. -/
def headerChars : List Char :=
  ['C', 'o', 'p', 'y', 'r', 'i', 'g', 'h', 't', ' ', '(', 'c', ')', ' ']

/-- The year-list correction of `update_header`: append the current year when
the parsed set is empty or its last element is not the current year. -/
def fixYears (year : Nat) (ys : List Nat) : List Nat :=
  if ys = [] ∨ ys.getLast? ≠ some year then ys ++ [year] else ys

/-- The content transformation of `update_header`: if the loose copyright
pattern matches nowhere the text is unchanged (the file is rewritten with its
original contents); otherwise only the first match is replaced by
`Copyright (c) ` followed by the corrected, re-rendered year list. -/
def update_header_content (year : Nat) (s : String) : String :=
  match searchCopyright s.data with
  | none => s
  | some (b, m, a) =>
    String.mk (b ++ (headerChars ++
      genChars (fixYears year (parse_years_string year (String.mk m)))) ++ a)

/-! ### Soundness of the search decomposition -/

theorem greedySplit_eq_append {l u v : List Char} (h : greedySplit l = some (u, v)) :
    l = u ++ v := by
  induction l generalizing u v with
  | nil => simp [greedySplit] at h
  | cons c rest ih =>
    simp only [greedySplit] at h
    cases hg : greedySplit rest with
    | some uv =>
      rw [hg] at h
      obtain ⟨u', v'⟩ := uv
      simp only [Option.some.injEq, Prod.mk.injEq] at h
      obtain ⟨h1, h2⟩ := h
      subst h2
      rw [← h1, List.cons_append, ← ih hg]
    | none =>
      rw [hg] at h
      by_cases ht : isTarget c = true
      · simp only [ht, if_true, Option.some.injEq, Prod.mk.injEq] at h
        obtain ⟨h1, h2⟩ := h
        rw [← h1, ← h2]
        rfl
      · simp [ht] at h

theorem tryMatchAt_sound {prev : Option Char} {s m rest : List Char}
    (h : tryMatchAt prev s = some (m, rest)) : s = m ++ rest := by
  unfold tryMatchAt at h
  by_cases hc : (boundaryOk prev && ciStarts copyrightChars s && afterBoundary (s.drop 9)) = true
  · rw [if_pos hc] at h
    cases hg : greedySplit (firstLine (s.drop 9)) with
    | none => rw [hg] at h; exact absurd h (by simp)
    | some uv =>
      rw [hg] at h
      obtain ⟨u, v⟩ := uv
      simp only [Option.some.injEq, Prod.mk.injEq] at h
      obtain ⟨h1, h2⟩ := h
      have hsplit : s.drop 9 = u ++ (v ++ (s.drop 9).dropWhile (fun c => !(c == '\n'))) := by
        conv_lhs => rw [← List.takeWhile_append_dropWhile (fun c => !(c == '\n')) (s.drop 9)]
        rw [show (s.drop 9).takeWhile (fun c => !(c == '\n'))
            = firstLine (s.drop 9) from rfl, greedySplit_eq_append hg, List.append_assoc]
      have hrest : rest = v ++ (s.drop 9).dropWhile (fun c => !(c == '\n')) := by
        rw [← h2, ← List.drop_drop]
        conv_lhs => rw [hsplit]
        exact List.drop_left u _
      rw [← h1, hrest, List.append_assoc, ← hsplit, List.take_append_drop]
  · rw [if_neg hc] at h
    exact absurd h (by simp)

theorem searchAux_sound {prev : Option Char} {s b m a : List Char}
    (h : searchAux prev s = some (b, m, a)) : s = b ++ m ++ a := by
  induction s generalizing prev b with
  | nil => simp [searchAux] at h
  | cons c cs ih =>
    simp only [searchAux] at h
    cases ht : tryMatchAt prev (c :: cs) with
    | some mr =>
      rw [ht] at h
      obtain ⟨m', rest'⟩ := mr
      simp only [Option.some.injEq, Prod.mk.injEq] at h
      obtain ⟨hb, hm, ha⟩ := h
      subst hb; subst hm; subst ha
      simpa using tryMatchAt_sound ht
    | none =>
      rw [ht] at h
      cases hs : searchAux (some c) cs with
      | none => rw [hs] at h; exact absurd h (by simp)
      | some bma =>
        rw [hs] at h
        obtain ⟨b', m', a'⟩ := bma
        simp only [Option.some.injEq, Prod.mk.injEq] at h
        obtain ⟨hb, hm, ha⟩ := h
        subst hm; subst ha
        rw [← hb, ih hs]
        simp

/-! ### Last element versus maximum on the parsed year list -/

theorem pairwise_le_getLast {l : List Nat} {y : Nat} (hp : List.Pairwise (· < ·) l)
    (hl : l.getLast? = some y) : ∀ a ∈ l, a ≤ y := by
  induction l with
  | nil => simp at hl
  | cons x xs ih =>
    cases xs with
    | nil =>
      simp only [List.getLast?_singleton, Option.some.injEq] at hl
      subst hl
      simp
    | cons z zs =>
      rw [List.getLast?_cons_cons] at hl
      rw [List.pairwise_cons] at hp
      obtain ⟨hx, hp'⟩ := hp
      have hy : y ∈ z :: zs := List.mem_of_getLast?_eq_some hl
      intro a ha
      rcases List.mem_cons.mp ha with rfl | ha'
      · exact le_of_lt (hx y hy)
      · exact ih hp' hl a ha'

theorem fixYears_eq_maximum_rule {year : Nat} {ys : List Nat}
    (hp : List.Pairwise (· < ·) ys) :
    fixYears year ys =
      if ys.maximum = (year : WithBot Nat) then ys else ys ++ [year] := by
  by_cases hmax : ys.maximum = (year : WithBot Nat)
  · rw [if_pos hmax]
    obtain ⟨hmem, hle⟩ := List.maximum_eq_coe_iff.mp hmax
    have hne : ys ≠ [] := List.ne_nil_of_mem hmem
    have hlast : ys.getLast? = some (ys.getLast hne) := List.getLast?_eq_getLast ys hne
    have h1 : ys.getLast hne ≤ year := hle _ (List.getLast_mem hne)
    have h2 : year ≤ ys.getLast hne := pairwise_le_getLast hp hlast year hmem
    have : ys.getLast? = some year := by rw [hlast]; congr 1; omega
    unfold fixYears
    rw [if_neg]
    push_neg
    exact ⟨hne, this⟩
  · rw [if_neg hmax]
    unfold fixYears
    rw [if_pos]
    by_cases hnil : ys = []
    · exact Or.inl hnil
    · refine Or.inr ?_
      intro hlast
      exact hmax (List.maximum_eq_coe_iff.mpr
        ⟨List.mem_of_getLast?_eq_some hlast, pairwise_le_getLast hp hlast⟩)

/-! ### Claims C2, C7, C8 -/

/-- Claim C2: when the loose pattern matches, `update_header` parses the
matched substring, appends the current year exactly when the parsed set is
empty or its maximum is not the current year, renders the canonical string,
and replaces only the first match with `Copyright (c) ` plus that string. -/
theorem update_header_append_rule (year : Nat) (s : String) (b m a : List Char)
    (h : searchCopyright s.data = some (b, m, a)) :
    (update_header_content year s).data =
      b ++ (headerChars ++ genChars
        (if (parse_years_string year (String.mk m)).maximum = (year : WithBot Nat)
         then parse_years_string year (String.mk m)
         else parse_years_string year (String.mk m) ++ [year])) ++ a := by
  have hu : update_header_content year s = String.mk (b ++ (headerChars ++
      genChars (fixYears year (parse_years_string year (String.mk m)))) ++ a) := by
    unfold update_header_content
    rw [h]
  rw [hu, fixYears_eq_maximum_rule (parse_years_wellformed year (String.mk m)).1]

/-- Claim C7: rewriting preserves everything outside the first match: the old
content splits as before ++ match ++ after, and the new content is the same
with only the matched substring replaced. -/
theorem update_header_frame (year : Nat) (s : String) (b m a : List Char)
    (h : searchCopyright s.data = some (b, m, a)) :
    s.data = b ++ m ++ a
    ∧ (update_header_content year s).data =
        b ++ (headerChars ++
          genChars (fixYears year (parse_years_string year (String.mk m)))) ++ a := by
  refine ⟨searchAux_sound h, ?_⟩
  unfold update_header_content
  rw [h]

/-- Claim C8: when the loose pattern matches nowhere, `update_header` writes
the contents back unchanged, while a file with that content (failing the
scanner's copyright check) still appears in the copyright-failure list. -/
theorem update_header_noop (year : Nat) (content name : String)
    (files : List (String × String))
    (hmem : (name, content) ∈ files)
    (hscan : (scanFile year (splitLines content.data)).1 = false)
    (hnone : searchCopyright content.data = none) :
    update_header_content year content = content
    ∧ name ∈ (runDriver year files).badCopyright := by
  constructor
  · unfold update_header_content
    rw [hnone]
  · show name ∈ bad_copyright_files year files
    unfold bad_copyright_files
    refine List.mem_map.mpr ⟨(name, content), ?_, rfl⟩
    refine List.mem_filter.mpr ⟨hmem, ?_⟩
    simp [hscan]

/-- Witness for C2 on a concrete header with a year range and current year
2024. -/
theorem update_header_append_rule_witness :
    searchCopyright ("# Copyright (C) 2014-2021\nrest".data)
      = some ("# ".data, "Copyright (C) 2014-2021".data, "\nrest".data)
    ∧ (update_header_content 2024 "# Copyright (C) 2014-2021\nrest").data =
        "# ".data ++ (headerChars ++ genChars
          (if (parse_years_string 2024 (String.mk ("Copyright (C) 2014-2021".data))).maximum
              = (2024 : WithBot Nat)
           then parse_years_string 2024 (String.mk ("Copyright (C) 2014-2021".data))
           else parse_years_string 2024 (String.mk ("Copyright (C) 2014-2021".data)) ++ [2024]))
          ++ "\nrest".data :=
  ⟨by decide, update_header_append_rule 2024 "# Copyright (C) 2014-2021\nrest" _ _ _ (by decide)⟩

/-- Witness for C7 on the spec's end-to-end example content. -/
theorem update_header_frame_witness :
    searchCopyright ("Copyright (c) 2020\n".data)
      = some ([], "Copyright (c) 2020".data, ['\n'])
    ∧ ("Copyright (c) 2020\n".data = [] ++ "Copyright (c) 2020".data ++ ['\n']
      ∧ (update_header_content 2024 "Copyright (c) 2020\n").data =
          [] ++ (headerChars ++ genChars
            (fixYears 2024 (parse_years_string 2024 (String.mk ("Copyright (c) 2020".data)))))
            ++ ['\n']) :=
  ⟨by decide, update_header_frame 2024 "Copyright (c) 2020\n" _ _ _ (by decide)⟩

/-- Witness for C8 on a file with no copyright mention at all. -/
theorem update_header_noop_witness :
    ("f", ("hello\n" : String)) ∈ [(("f" : String), ("hello\n" : String))]
    ∧ (scanFile 2024 (splitLines ("hello\n" : String).data)).1 = false
    ∧ searchCopyright ("hello\n" : String).data = none
    ∧ (update_header_content 2024 "hello\n" = "hello\n"
        ∧ "f" ∈ (runDriver 2024 [("f", "hello\n")]).badCopyright) :=
  ⟨by decide, by decide, by decide,
    update_header_noop 2024 "hello\n" "f" [("f", "hello\n")] (by decide) (by decide) (by decide)⟩

/-! ### Characterization of `greedySplit` -/

theorem greedySplit_none_iff {l : List Char} :
    greedySplit l = none ↔ ∀ c ∈ l, isTarget c = false := by
  induction l with
  | nil => simp [greedySplit]
  | cons c rest ih =>
    simp only [greedySplit]
    cases hg : greedySplit rest with
    | some uv =>
      constructor
      · intro h; exact absurd h (by simp)
      · intro h
        have := ih.mpr (fun x hx => h x (List.mem_cons_of_mem c hx))
        rw [this] at hg
        cases hg
    | none =>
      by_cases ht : isTarget c = true
      · rw [if_pos ht]
        constructor
        · intro h; exact absurd h (by simp)
        · intro h
          have := h c (List.mem_cons_self c rest)
          rw [ht] at this
          cases this
      · rw [if_neg ht]
        constructor
        · intro _ x hx
          rcases List.mem_cons.mp hx with rfl | hx'
          · simpa using ht
          · exact ih.mp hg x hx'
        · intro _; rfl

theorem greedySplit_props {l u v : List Char} (h : greedySplit l = some (u, v)) :
    (∃ u' t, u = u' ++ [t] ∧ isTarget t = true) ∧ (∀ c ∈ v, isTarget c = false) := by
  induction l generalizing u v with
  | nil => simp [greedySplit] at h
  | cons c rest ih =>
    simp only [greedySplit] at h
    cases hg : greedySplit rest with
    | some uv =>
      rw [hg] at h
      obtain ⟨u', v'⟩ := uv
      simp only [Option.some.injEq, Prod.mk.injEq] at h
      obtain ⟨h1, h2⟩ := h
      obtain ⟨⟨u'', t, hu, ht⟩, hv⟩ := ih hg
      subst h2
      refine ⟨⟨c :: u'', t, ?_, ht⟩, hv⟩
      rw [← h1, hu]
      rfl
    | none =>
      rw [hg] at h
      by_cases ht : isTarget c = true
      · rw [if_pos ht] at h
        simp only [Option.some.injEq, Prod.mk.injEq] at h
        obtain ⟨h1, h2⟩ := h
        subst h2
        exact ⟨⟨[], c, by rw [← h1]; rfl, ht⟩, greedySplit_none_iff.mp hg⟩
      · rw [if_neg ht] at h
        cases h

theorem greedySplit_append_none {x y : List Char} (hx : greedySplit x = none)
    (hy : ∀ c ∈ y, isTarget c = false) : greedySplit (x ++ y) = none := by
  rw [greedySplit_none_iff] at hx ⊢
  intro c hc
  rcases List.mem_append.mp hc with h | h
  exacts [hx c h, hy c h]

theorem greedySplit_append_some {x y u v : List Char} (hy : ∀ c ∈ y, isTarget c = false)
    (hx : greedySplit x = some (u, v)) : greedySplit (x ++ y) = some (u, v ++ y) := by
  induction x generalizing u v with
  | nil => simp [greedySplit] at hx
  | cons c rest ih =>
    simp only [greedySplit] at hx
    rw [List.cons_append]
    simp only [greedySplit]
    cases hg : greedySplit rest with
    | some uv =>
      obtain ⟨u', v'⟩ := uv
      rw [hg] at hx
      simp only [Option.some.injEq, Prod.mk.injEq] at hx
      obtain ⟨h1, h2⟩ := hx
      subst h2
      rw [ih hg, ← h1]
    | none =>
      rw [hg] at hx
      by_cases ht : isTarget c = true
      · rw [if_pos ht] at hx
        simp only [Option.some.injEq, Prod.mk.injEq] at hx
        obtain ⟨h1, h2⟩ := hx
        rw [greedySplit_append_none hg hy, if_pos ht, ← h1, ← h2]
      · rw [if_neg ht] at hx
        cases hx

theorem greedySplit_concat_target {x : List Char} {t : Char} (ht : isTarget t = true) :
    greedySplit (x ++ [t]) = some (x ++ [t], []) := by
  induction x with
  | nil => simp [greedySplit, ht]
  | cons c rest ih =>
    rw [List.cons_append]
    simp only [greedySplit]
    rw [ih]

/-! ### takeWhile helpers -/

theorem takeWhile_append_all {α : Type} {p : α → Bool} {x y : List α}
    (hx : ∀ c ∈ x, p c = true) : (x ++ y).takeWhile p = x ++ y.takeWhile p := by
  induction x with
  | nil => rfl
  | cons c rest ih =>
    have hc := hx c (List.mem_cons_self c rest)
    rw [List.cons_append, List.takeWhile_cons, hc]
    simp only [if_true]
    rw [ih (fun d hd => hx d (List.mem_cons_of_mem c hd)), List.cons_append]

theorem takeWhile_append_stop {α : Type} {p : α → Bool} {x : List α}
    (hx : ∃ c ∈ x, p c = false) (y : List α) :
    (x ++ y).takeWhile p = x.takeWhile p := by
  induction x with
  | nil => simp at hx
  | cons c rest ih =>
    rw [List.cons_append, List.takeWhile_cons, List.takeWhile_cons]
    by_cases hc : p c = true
    · rw [hc]
      simp only [if_true]
      obtain ⟨d, hd, hpd⟩ := hx
      rcases List.mem_cons.mp hd with rfl | hd'
      · rw [hc] at hpd; cases hpd
      · rw [ih ⟨d, hd', hpd⟩]
    · have : p c = false := by simpa using hc
      rw [this]
      simp

theorem takeWhile_dropWhile_nil {α : Type} {p : α → Bool} (l : List α) :
    (l.dropWhile p).takeWhile p = [] := by
  induction l with
  | nil => rfl
  | cons c rest ih =>
    rw [List.dropWhile_cons]
    by_cases hc : p c = true
    · rw [if_pos hc]; exact ih
    · rw [if_neg hc, List.takeWhile_cons, if_neg hc]

/-! ### ciStarts helpers -/

theorem ciStarts_append_left {p x y : List Char} (h : p.length ≤ x.length) :
    ciStarts p (x ++ y) = ciStarts p x := by
  induction p generalizing x with
  | nil => simp [ciStarts]
  | cons q ps ih =>
    cases x with
    | nil => simp at h
    | cons c x' =>
      rw [List.cons_append]
      simp only [ciStarts]
      rw [ih (by simpa using h)]

theorem ciStarts_drop {p x y : List Char} (h : ciStarts p (x ++ y) = true)
    (hlt : x.length < p.length) : ciStarts (p.drop x.length) y = true := by
  induction x generalizing p with
  | nil => simpa using h
  | cons c x' ih =>
    cases p with
    | nil => simp at hlt
    | cons q ps =>
      rw [List.cons_append] at h
      simp only [ciStarts, Bool.and_eq_true] at h
      simpa using ih h.2 (by simpa using hlt)

theorem ciStarts_mem_take {p s : List Char} (h : ciStarts p s = true) :
    ∀ c ∈ s.take p.length, ∃ d ∈ p, ciEq d c = true := by
  induction p generalizing s with
  | nil => simp
  | cons q ps ih =>
    cases s with
    | nil => simp [ciStarts] at h
    | cons c s' =>
      simp only [ciStarts, Bool.and_eq_true] at h
      intro x hx
      simp only [List.length_cons, List.take_succ_cons, List.mem_cons] at hx
      rcases hx with rfl | hx'
      · exact ⟨q, List.mem_cons_self q ps, h.1⟩
      · obtain ⟨d, hd, hci⟩ := ih h.2 x hx'
        exact ⟨d, List.mem_cons_of_mem q hd, hci⟩

theorem copyright_ci_not_nl : ∀ d ∈ copyrightChars, ∀ c : Char,
    ciEq d c = true → (c == '\n') = false := by
  intro d hd c hc
  by_cases hnl : (c == '\n') = true
  · have : c = '\n' := by simpa using hnl
    subst this
    fin_cases hd <;> exact absurd hc (by decide)
  · simpa using hnl

theorem ciStarts_copyright_no_nl {s : List Char} (h : ciStarts copyrightChars s = true) :
    ∀ c ∈ s.take 9, (c == '\n') = false := by
  intro c hc
  obtain ⟨d, hd, hci⟩ := ciStarts_mem_take h c (by simpa [copyrightChars] using hc)
  exact copyright_ci_not_nl d hd c hci

theorem ciStarts_cons_false {q c : Char} {ps cs : List Char} (h : ciEq q c = false) :
    ciStarts (q :: ps) (c :: cs) = false := by
  simp [ciStarts, h]

theorem ciStarts_drop_C {k : Nat} (h0 : 0 < k) (h9 : k < 9) (t : List Char) :
    ciStarts (copyrightChars.drop k) ('C' :: t) = false := by
  interval_cases k <;> exact ciStarts_cons_false (by decide)

/-! ### firstLine helpers -/

theorem mem_firstLine_not_nl {l : List Char} {c : Char} (h : c ∈ firstLine l) :
    (c == '\n') = false := by
  have := List.mem_takeWhile_imp h
  simpa using this

theorem firstLine_append_all {x y : List Char} (hx : ∀ c ∈ x, (c == '\n') = false) :
    firstLine (x ++ y) = x ++ firstLine y :=
  takeWhile_append_all (fun c hc => by simp [hx c hc])

theorem firstLine_append_break {x : List Char} (hx : ∃ c ∈ x, (c == '\n') = true)
    (y : List Char) : firstLine (x ++ y) = firstLine x := by
  obtain ⟨c, hc, hcnl⟩ := hx
  exact takeWhile_append_stop ⟨c, hc, by simp [hcnl]⟩ y

theorem firstLine_dropWhile (l : List Char) :
    firstLine (l.dropWhile (fun c => !(c == '\n'))) = [] :=
  takeWhile_dropWhile_nil l

/-! ### Inversion of `tryMatchAt` -/

theorem tryMatchAt_inv {prev : Option Char} {s m rest : List Char}
    (h : tryMatchAt prev s = some (m, rest)) :
    boundaryOk prev = true
    ∧ ciStarts copyrightChars s = true
    ∧ afterBoundary (s.drop 9) = true
    ∧ ∃ u v, greedySplit (firstLine (s.drop 9)) = some (u, v)
        ∧ m = s.take 9 ++ u ∧ rest = s.drop (9 + u.length) := by
  unfold tryMatchAt at h
  by_cases hcond :
      (boundaryOk prev && ciStarts copyrightChars s && afterBoundary (s.drop 9)) = true
  · rw [if_pos hcond] at h
    simp only [Bool.and_eq_true] at hcond
    cases hg : greedySplit (firstLine (s.drop 9)) with
    | none => rw [hg] at h; cases h
    | some uv =>
      rw [hg] at h
      obtain ⟨u, v⟩ := uv
      simp only [Option.some.injEq, Prod.mk.injEq] at h
      exact ⟨hcond.1.1, hcond.1.2, hcond.2, u, v, hg ▸ rfl, h.1.symm, h.2.symm⟩

  · rw [if_neg hcond] at h
    cases h

theorem tryMatchAt_m_props {prev : Option Char} {s m rest : List Char}
    (h : tryMatchAt prev s = some (m, rest)) :
    (∀ c ∈ m, (c == '\n') = false) ∧ (∃ c ∈ m, isTarget c = true)
    ∧ (∀ c ∈ firstLine rest, isTarget c = false) := by
  obtain ⟨_, hci, _, u, v, hg, hm, hrest⟩ := tryMatchAt_inv h
  obtain ⟨⟨u', t, hu, ht⟩, hv⟩ := greedySplit_props hg
  have hline : firstLine (s.drop 9) = u ++ v := greedySplit_eq_append hg
  have humem : ∀ c ∈ u, c ∈ firstLine (s.drop 9) := by
    intro c hc; rw [hline]; exact List.mem_append.mpr (Or.inl hc)
  have hvmem : ∀ c ∈ v, c ∈ firstLine (s.drop 9) := by
    intro c hc; rw [hline]; exact List.mem_append.mpr (Or.inr hc)
  refine ⟨?_, ⟨t, by rw [hm, hu]; simp, ht⟩, ?_⟩
  · intro c hc
    rw [hm, List.mem_append] at hc
    rcases hc with hc | hc
    · exact ciStarts_copyright_no_nl hci c hc
    · exact mem_firstLine_not_nl (humem c hc)
  · have hsplit : s.drop 9 = u ++ (v ++ (s.drop 9).dropWhile (fun c => !(c == '\n'))) := by
      conv_lhs => rw [← List.takeWhile_append_dropWhile (fun c => !(c == '\n')) (s.drop 9)]
      rw [show (s.drop 9).takeWhile (fun c => !(c == '\n'))
          = firstLine (s.drop 9) from rfl, hline, List.append_assoc]
    have hrv : rest = v ++ (s.drop 9).dropWhile (fun c => !(c == '\n')) := by
      rw [hrest, ← List.drop_drop]
      conv_lhs => rw [hsplit]
      exact List.drop_left u _
    rw [hrv, firstLine_append_all (fun c hc => mem_firstLine_not_nl (hvmem c hc)),
      firstLine_dropWhile, List.append_nil]
    exact hv

/-! ### Replacement lemmas for the idempotence argument -/

theorem tryMatch_replace_some {prev : Option Char} {m a g : List Char}
    (h : tryMatchAt prev (m ++ a) = some (m, a))
    (hgnl : ∀ c ∈ g, (c == '\n') = false)
    (hgt : ∃ g' t, g = g' ++ [t] ∧ isTarget t = true) :
    tryMatchAt prev ((headerChars ++ g) ++ a) = some (headerChars ++ g, a) := by
  obtain ⟨hb, _, _, _⟩ := tryMatchAt_inv h
  obtain ⟨_, _, hafree⟩ := tryMatchAt_m_props h
  have hci : ciStarts copyrightChars ((headerChars ++ g) ++ a) = true := by
    rw [List.append_assoc, ciStarts_append_left (by simp [copyrightChars, headerChars])]
    decide
  have hdrop9 : ((headerChars ++ g) ++ a).drop 9 = [' ', '(', 'c', ')', ' '] ++ (g ++ a) := by
    rw [List.append_assoc]
    rfl
  have hab2 : afterBoundary (((headerChars ++ g) ++ a).drop 9) = true := by
    rw [hdrop9]
    rfl
  have hcond : (boundaryOk prev && ciStarts copyrightChars ((headerChars ++ g) ++ a)
      && afterBoundary (((headerChars ++ g) ++ a).drop 9)) = true := by
    rw [hb, hci, hab2]
    rfl
  have hfl : firstLine (((headerChars ++ g) ++ a).drop 9)
      = ([' ', '(', 'c', ')', ' '] ++ g) ++ firstLine a := by
    rw [hdrop9, firstLine_append_all (x := [' ', '(', 'c', ')', ' ']) (by decide),
      firstLine_append_all (x := g) hgnl, List.append_assoc]
  have hg2 : greedySplit (([' ', '(', 'c', ')', ' '] ++ g) ++ firstLine a)
      = some ([' ', '(', 'c', ')', ' '] ++ g, firstLine a) := by
    obtain ⟨g', t, hgeq, ht⟩ := hgt
    have h1 : [' ', '(', 'c', ')', ' '] ++ g = ([' ', '(', 'c', ')', ' '] ++ g') ++ [t] := by
      rw [hgeq, List.append_assoc]
    rw [h1, greedySplit_append_some hafree (greedySplit_concat_target ht)]
    simp
  unfold tryMatchAt
  rw [if_pos hcond, hfl, hg2]
  show some (((headerChars ++ g) ++ a).take 9 ++ ([' ', '(', 'c', ')', ' '] ++ g),
      ((headerChars ++ g) ++ a).drop (9 + ([' ', '(', 'c', ')', ' '] ++ g).length))
    = some (headerChars ++ g, a)
  have htake : ((headerChars ++ g) ++ a).take 9 = ['C', 'o', 'p', 'y', 'r', 'i', 'g', 'h', 't'] := by
    rw [List.append_assoc]
    rfl
  have hlen : 9 + ([' ', '(', 'c', ')', ' '] ++ g).length = (headerChars ++ g).length := by
    simp [headerChars]
    omega
  rw [show (((headerChars ++ g) ++ a).drop (9 + ([' ', '(', 'c', ')', ' '] ++ g).length)) = a
      from List.drop_left' hlen.symm]
  rw [htake]
  rw [show ['C', 'o', 'p', 'y', 'r', 'i', 'g', 'h', 't'] ++ ([' ', '(', 'c', ')', ' '] ++ g)
      = headerChars ++ g from by rw [← List.append_assoc]; rfl]

theorem tryMatch_replace_none {prev : Option Char} {b2 m a g : List Char}
    (hfail : tryMatchAt prev (b2 ++ m ++ a) = none)
    (hb2 : b2 ≠ [])
    (hmnl : ∀ c ∈ m, (c == '\n') = false)
    (hmt : ∃ c ∈ m, isTarget c = true) :
    tryMatchAt prev (b2 ++ (headerChars ++ g) ++ a) = none := by
  unfold tryMatchAt at hfail ⊢
  by_cases hbo : boundaryOk prev = true
  case neg =>
    refine if_neg ?_
    intro hT
    rw [Bool.and_eq_true, Bool.and_eq_true] at hT
    exact hbo hT.1.1
  case pos =>
  rcases Nat.lt_or_ge b2.length 9 with hlt | hge
  · have hciR : ciStarts copyrightChars (b2 ++ (headerChars ++ g) ++ a) = false := by
      by_contra hciT
      have h2 : ciStarts copyrightChars (b2 ++ ((headerChars ++ g) ++ a)) = true := by
        rw [← List.append_assoc]
        simpa using hciT
      have h3 := ciStarts_drop h2 (by simpa [copyrightChars] using hlt)
      have h4 : (headerChars ++ g) ++ a
          = 'C' :: ((['o', 'p', 'y', 'r', 'i', 'g', 'h', 't', ' ', '(', 'c', ')', ' '] ++ g) ++ a) := by
        rw [show headerChars
            = 'C' :: ['o', 'p', 'y', 'r', 'i', 'g', 'h', 't', ' ', '(', 'c', ')', ' '] from rfl]
        simp
      rw [h4, ciStarts_drop_C (List.length_pos.mpr hb2) hlt] at h3
      cases h3
    refine if_neg ?_
    intro hT
    rw [Bool.and_eq_true, Bool.and_eq_true] at hT
    rw [hciR] at hT
    cases hT.1.2
  · have hL : ciStarts copyrightChars (b2 ++ (headerChars ++ g) ++ a)
        = ciStarts copyrightChars b2 := by
      rw [List.append_assoc]
      exact ciStarts_append_left (le_trans (by simp [copyrightChars]) hge)
    have hR : ciStarts copyrightChars (b2 ++ m ++ a) = ciStarts copyrightChars b2 := by
      rw [List.append_assoc]
      exact ciStarts_append_left (le_trans (by simp [copyrightChars]) hge)
    have hciEq : ciStarts copyrightChars (b2 ++ (headerChars ++ g) ++ a)
        = ciStarts copyrightChars (b2 ++ m ++ a) := hL.trans hR.symm
    by_cases hci : ciStarts copyrightChars (b2 ++ m ++ a) = true
    case neg =>
      refine if_neg ?_
      intro hT
      rw [Bool.and_eq_true, Bool.and_eq_true] at hT
      exact hci (hciEq ▸ hT.1.2)
    case pos =>
    rcases Nat.eq_or_lt_of_le hge with h9 | h10
    · have hdropR : (b2 ++ (headerChars ++ g) ++ a).drop 9 = (headerChars ++ g) ++ a := by
        rw [List.append_assoc]
        exact List.drop_left' h9.symm
      have habR : afterBoundary ((b2 ++ (headerChars ++ g) ++ a).drop 9) = false := by
        rw [hdropR, show (headerChars ++ g) ++ a
            = 'C' :: ((['o', 'p', 'y', 'r', 'i', 'g', 'h', 't', ' ', '(', 'c', ')', ' '] ++ g) ++ a)
          from by
            rw [show headerChars
                = 'C' :: ['o', 'p', 'y', 'r', 'i', 'g', 'h', 't', ' ', '(', 'c', ')', ' '] from rfl]
            simp]
        rfl
      refine if_neg ?_
      intro hT
      rw [Bool.and_eq_true] at hT
      rw [habR] at hT
      cases hT.2
    · have hd2 : ∃ d t2, b2.drop 9 = d :: t2 := by
        have hne : b2.drop 9 ≠ [] := by
          intro hnil
          have := congrArg List.length hnil
          simp at this
          omega
        exact List.exists_cons_of_ne_nil hne
      obtain ⟨d, t2, hd2⟩ := hd2
      have hdropm : (b2 ++ m ++ a).drop 9 = b2.drop 9 ++ (m ++ a) := by
        rw [List.append_assoc]
        exact List.drop_append_of_le_length (by omega)
      have hdropR : (b2 ++ (headerChars ++ g) ++ a).drop 9
          = b2.drop 9 ++ ((headerChars ++ g) ++ a) := by
        rw [List.append_assoc]
        exact List.drop_append_of_le_length (by omega)
      have habEq : afterBoundary ((b2 ++ (headerChars ++ g) ++ a).drop 9)
          = afterBoundary ((b2 ++ m ++ a).drop 9) := by
        rw [hdropm, hdropR, hd2]
        rfl
      by_cases hab : afterBoundary ((b2 ++ m ++ a).drop 9) = true
      case neg =>
        refine if_neg ?_
        intro hT
        rw [Bool.and_eq_true] at hT
        exact hab (habEq ▸ hT.2)
      case pos =>
      have hcond : (boundaryOk prev && ciStarts copyrightChars (b2 ++ m ++ a)
          && afterBoundary ((b2 ++ m ++ a).drop 9)) = true := by
        rw [hbo, hci, hab]
        rfl
      rw [if_pos hcond] at hfail
      cases hgs : greedySplit (firstLine ((b2 ++ m ++ a).drop 9)) with
      | some uv =>
        rw [hgs] at hfail
        obtain ⟨u, v⟩ := uv
        cases hfail
      | none =>
        have hnotarget := greedySplit_none_iff.mp hgs
        have hnl : ∃ c ∈ b2.drop 9, (c == '\n') = true := by
          by_contra hno
          push_neg at hno
          have hno' : ∀ c ∈ b2.drop 9, (c == '\n') = false := by
            intro c hc
            have := hno c hc
            simpa using this
          have hfl : firstLine (b2.drop 9 ++ (m ++ a))
              = b2.drop 9 ++ (m ++ firstLine a) := by
            rw [firstLine_append_all hno', firstLine_append_all hmnl]
          obtain ⟨c0, hc0m, hc0t⟩ := hmt
          have hc0f : isTarget c0 = false := by
            apply hnotarget
            rw [hdropm, hfl]
            exact List.mem_append.mpr (Or.inr (List.mem_append.mpr (Or.inl hc0m)))
          rw [hc0t] at hc0f
          cases hc0f
        have hflEq : firstLine (b2.drop 9 ++ ((headerChars ++ g) ++ a))
            = firstLine (b2.drop 9 ++ (m ++ a)) := by
          rw [firstLine_append_break hnl, firstLine_append_break hnl]
        have hcondR : (boundaryOk prev && ciStarts copyrightChars (b2 ++ (headerChars ++ g) ++ a)
            && afterBoundary ((b2 ++ (headerChars ++ g) ++ a).drop 9)) = true := by
          rw [hbo, hciEq, hci, habEq, hab]
          rfl
        rw [if_pos hcondR, hdropR, hflEq, ← hdropm, hgs]

/-! ### The leftmost match survives the replacement -/

theorem searchAux_success {prev : Option Char} {s b m a : List Char}
    (h : searchAux prev s = some (b, m, a)) :
    ∃ prev', tryMatchAt prev' (m ++ a) = some (m, a) := by
  induction s generalizing prev b with
  | nil => simp [searchAux] at h
  | cons c cs ih =>
    simp only [searchAux] at h
    cases ht : tryMatchAt prev (c :: cs) with
    | some mr =>
      rw [ht] at h
      obtain ⟨m', rest'⟩ := mr
      simp only [Option.some.injEq, Prod.mk.injEq] at h
      obtain ⟨_, hm, ha⟩ := h
      subst hm; subst ha
      exact ⟨prev, by rw [← tryMatchAt_sound ht]; exact ht⟩
    | none =>
      rw [ht] at h
      cases hs : searchAux (some c) cs with
      | none => rw [hs] at h; cases h
      | some bma =>
        rw [hs] at h
        obtain ⟨b', m', a'⟩ := bma
        simp only [Option.some.injEq, Prod.mk.injEq] at h
        obtain ⟨_, hm, ha⟩ := h
        subst hm; subst ha
        exact ih hs

theorem searchAux_replace {m a g : List Char}
    (hgnl : ∀ c ∈ g, (c == '\n') = false)
    (hgt : ∃ g' t, g = g' ++ [t] ∧ isTarget t = true)
    (hmnl : ∀ c ∈ m, (c == '\n') = false)
    (hmt : ∃ c ∈ m, isTarget c = true) :
    ∀ (b : List Char) (prev : Option Char),
      searchAux prev (b ++ m ++ a) = some (b, m, a) →
      searchAux prev (b ++ (headerChars ++ g) ++ a) = some (b, headerChars ++ g, a) := by
  intro b
  induction b with
  | nil =>
    intro prev h
    simp only [List.nil_append] at h ⊢
    obtain ⟨c0, hc0, _⟩ := hmt
    cases hma : m ++ a with
    | nil =>
      exfalso
      rw [hma] at h
      simp [searchAux] at h
    | cons c cs =>
      rw [hma] at h
      simp only [searchAux] at h
      cases ht : tryMatchAt prev (c :: cs) with
      | some mr =>
        rw [ht] at h
        obtain ⟨m', rest'⟩ := mr
        simp only [Option.some.injEq, Prod.mk.injEq] at h
        obtain ⟨_, hm, ha⟩ := h
        have htm : tryMatchAt prev (m ++ a) = some (m, a) := by
          rw [hma, ht, hm, ha]
        have h2 := tryMatch_replace_some htm hgnl hgt
        have hX : (headerChars ++ g) ++ a
            = 'C' :: ((['o', 'p', 'y', 'r', 'i', 'g', 'h', 't', ' ', '(', 'c', ')', ' '] ++ g) ++ a) := by
          rw [show headerChars
              = 'C' :: ['o', 'p', 'y', 'r', 'i', 'g', 'h', 't', ' ', '(', 'c', ')', ' '] from rfl]
          simp
        rw [hX]
        simp only [searchAux]
        rw [← hX, h2]
      | none =>
        rw [ht] at h
        cases hs : searchAux (some c) cs with
        | none => rw [hs] at h; cases h
        | some bma =>
          rw [hs] at h
          obtain ⟨b', m', a'⟩ := bma
          simp only [Option.some.injEq, Prod.mk.injEq] at h
          exact absurd h.1 (by simp)
  | cons c b' ih =>
    intro prev h
    rw [show (c :: b') ++ m ++ a = c :: (b' ++ m ++ a) from by simp] at h
    rw [show (c :: b') ++ (headerChars ++ g) ++ a
        = c :: (b' ++ (headerChars ++ g) ++ a) from by simp]
    simp only [searchAux] at h ⊢
    cases ht : tryMatchAt prev (c :: (b' ++ m ++ a)) with
    | some mr =>
      rw [ht] at h
      obtain ⟨m', rest'⟩ := mr
      simp only [Option.some.injEq, Prod.mk.injEq] at h
      exact absurd h.1.symm (by simp)
    | none =>
      rw [ht] at h
      have hfail : tryMatchAt prev ((c :: b') ++ m ++ a) = none := by
        rw [show (c :: b') ++ m ++ a = c :: (b' ++ m ++ a) from by simp]
        exact ht
      have htR := tryMatch_replace_none (g := g) hfail (by simp) hmnl hmt
      rw [show (c :: b') ++ (headerChars ++ g) ++ a
          = c :: (b' ++ (headerChars ++ g) ++ a) from by simp] at htR
      rw [htR]
      cases hs : searchAux (some c) (b' ++ m ++ a) with
      | none => rw [hs] at h; cases h
      | some bma =>
        rw [hs] at h
        obtain ⟨b'', m', a'⟩ := bma
        simp only [Option.some.injEq, Prod.mk.injEq] at h
        obtain ⟨hb, hm, ha⟩ := h
        subst hm; subst ha
        have hb'' : b'' = b' := by
          simp only [List.cons.injEq] at hb
          exact hb.2
        subst hb''
        rw [ih (some c) hs]

/-! ### Well-formedness of the corrected year list -/

theorem fixYears_wf {year : Nat} {ys : List Nat} (hyear : 1900 < year)
    (hp : List.Pairwise (· < ·) ys) (hr : ∀ a ∈ ys, 1900 < a ∧ a ≤ year) :
    List.Pairwise (· < ·) (fixYears year ys)
    ∧ (∀ a ∈ fixYears year ys, 1900 < a ∧ a ≤ year)
    ∧ (fixYears year ys).getLast? = some year
    ∧ fixYears year ys ≠ [] := by
  unfold fixYears
  by_cases hcond : ys = [] ∨ ys.getLast? ≠ some year
  · rw [if_pos hcond]
    have hlt : ∀ x ∈ ys, x < year := by
      intro x hx
      have hxr := hr x hx
      rcases Nat.lt_or_ge x year with hlt | hge
      · exact hlt
      · exfalso
        have hxy : x = year := by omega
        have hne : ys ≠ [] := List.ne_nil_of_mem hx
        rcases hcond with hnil | hlast
        · exact hne hnil
        · have hl : ys.getLast? = some (ys.getLast hne) := List.getLast?_eq_getLast ys hne
          have h1 : x ≤ ys.getLast hne := pairwise_le_getLast hp hl x hx
          have h2 : ys.getLast hne ≤ year := (hr _ (List.getLast_mem hne)).2
          have h3 : ys.getLast hne = year := by omega
          rw [h3] at hl
          exact hlast hl
    refine ⟨?_, ?_, List.getLast?_concat _, by simp⟩
    · rw [List.pairwise_append]
      refine ⟨hp, List.pairwise_singleton _ _, ?_⟩
      intro x hx y' hy'
      rw [List.mem_singleton] at hy'
      subst hy'
      exact hlt x hx
    · intro a ha
      rcases List.mem_append.mp ha with h | h
      · exact hr a h
      · rw [List.mem_singleton] at h
        rw [h]
        exact ⟨hyear, le_refl year⟩
  · rw [if_neg hcond]
    push_neg at hcond
    exact ⟨hp, hr, hcond.2, hcond.1⟩

/-! ### Character facts about the rendered year string -/

theorem renderRun_chars (r : Nat × Nat) : ∀ c ∈ renderRun r, isDig c = true ∨ c = '-' := by
  intro c hc
  unfold renderRun at hc
  by_cases h : r.1 = r.2
  · rw [if_pos h] at hc
    exact Or.inl (natDigits_all_digit _ c hc)
  · rw [if_neg h] at hc
    rcases List.mem_append.mp hc with h1 | h1
    · exact Or.inl (natDigits_all_digit _ c h1)
    · rcases List.mem_cons.mp h1 with rfl | h2
      · exact Or.inr rfl
      · exact Or.inl (natDigits_all_digit _ c h2)

theorem renderRuns_chars : ∀ (runs : List (Nat × Nat)), ∀ c ∈ renderRuns runs,
    isDig c = true ∨ c = '-' ∨ c = ',' ∨ c = ' ' := by
  intro runs
  induction runs with
  | nil => simp [renderRuns]
  | cons r rs ih =>
    intro c hc
    cases rs with
    | nil =>
      rcases renderRun_chars r c hc with h | h
      exacts [Or.inl h, Or.inr (Or.inl h)]
    | cons r2 rs2 =>
      rw [renderRuns_cons (by simp)] at hc
      rcases List.mem_append.mp hc with h1 | h1
      · rcases renderRun_chars r c h1 with h | h
        exacts [Or.inl h, Or.inr (Or.inl h)]
      · rcases List.mem_cons.mp h1 with rfl | h2
        · exact Or.inr (Or.inr (Or.inl rfl))
        · rcases List.mem_cons.mp h2 with rfl | h3
          · exact Or.inr (Or.inr (Or.inr rfl))
          · exact ih c h3

theorem genChars_not_nl {ys : List Nat} : ∀ c ∈ genChars ys, (c == '\n') = false := by
  rw [genChars_eq_renderRuns]
  intro c hc
  rcases renderRuns_chars _ c hc with h | h | h | h
  · have := (isDig_not_special h).2.2.2
    simp [this]
  all_goals subst h; rfl

theorem renderRuns_ends_digit : ∀ (runs : List (Nat × Nat)), runs ≠ [] →
    ∃ pre d, renderRuns runs = pre ++ [d] ∧ isDig d = true := by
  intro runs
  induction runs with
  | nil => intro h; exact absurd rfl h
  | cons r rs ih =>
    intro _
    cases rs with
    | nil =>
      rw [show renderRuns [r] = renderRun r from rfl]
      unfold renderRun
      by_cases h : r.1 = r.2
      · rw [if_pos h]
        obtain ⟨l, d, hl, hd⟩ := natDigits_ends_digit r.1
        exact ⟨l, d, hl, hd⟩
      · rw [if_neg h]
        obtain ⟨l, d, hl, hd⟩ := natDigits_ends_digit r.2
        refine ⟨natDigits r.1 ++ '-' :: l, d, ?_, hd⟩
        rw [hl, List.append_assoc]
        rfl
    | cons r2 rs2 =>
      obtain ⟨pre, d, hpre, hd⟩ := ih (by simp)
      refine ⟨renderRun r ++ ',' :: ' ' :: pre, d, ?_, hd⟩
      rw [renderRuns_cons (by simp), hpre]
      simp

theorem genChars_ends_digit {ys : List Nat} (h : ys ≠ []) :
    ∃ g' t, genChars ys = g' ++ [t] ∧ isTarget t = true := by
  rw [genChars_eq_renderRuns]
  have hruns : runsOf ys ≠ [] := by
    cases ys with
    | nil => exact absurd rfl h
    | cons y rest => exact goRuns_ne_nil y y rest
  obtain ⟨pre, d, hpre, hd⟩ := renderRuns_ends_digit _ hruns
  exact ⟨pre, d, hpre, by simp [isTarget, hd]⟩

/-! ### Parsing ignores the non-digit replacement header text -/

theorem findRanges_other_cons (c : Char) (ts : List Tok) :
    findRanges (Tok.other c :: ts) = findRanges ts := rfl

theorem singlesAux_others : ∀ (p : List Char) (blocked : Bool) (ts : List Tok),
    singlesAux blocked (p.map Tok.other ++ ts)
      = singlesAux (match p.getLast? with | none => blocked | some c => c == '-') ts := by
  intro p
  induction p with
  | nil => intro blocked ts; rfl
  | cons c p' ih =>
    intro blocked ts
    rw [List.map_cons, List.cons_append,
      show singlesAux blocked (Tok.other c :: (p'.map Tok.other ++ ts))
        = singlesAux (c == '-') (p'.map Tok.other ++ ts) from rfl, ih]
    congr 1
    cases p' with
    | nil => rfl
    | cons d p'' =>
      have hz := List.getLast?_eq_getLast (d :: p'') (by simp)
      rw [List.getLast?_cons_cons, hz]

theorem findRanges_others : ∀ (p : List Char) (ts : List Tok),
    findRanges (p.map Tok.other ++ ts) = findRanges ts := by
  intro p
  induction p with
  | nil => intro ts; rfl
  | cons c p' ih =>
    intro ts
    rw [List.map_cons, List.cons_append, findRanges_other_cons, ih]

theorem parse_drops_header (year : Nat) (x : List Char) :
    parse_years_string year (String.mk (headerChars ++ x))
      = parse_years_string year (String.mk x) := by
  unfold parse_years_string
  rw [show (String.mk (headerChars ++ x)).data = headerChars ++ x from rfl,
    show (String.mk x).data = x from rfl,
    tokenize_others_append (by decide), singlesAux_others, findRanges_others]
  rfl

/-! ### Claim C9: idempotence of the header rewrite -/

/-- Claim C9: applying the `update_header` content transformation twice gives
the same text as applying it once (for a current year after 1900, as the real
clock always supplies). -/
theorem update_header_idempotent (year : Nat) (s : String) (hyear : 1900 < year) :
    update_header_content year (update_header_content year s) = update_header_content year s := by
  cases hsearch : searchCopyright s.data with
  | none =>
    have h1 : update_header_content year s = s := by
      unfold update_header_content
      rw [hsearch]
    rw [h1]
    exact h1
  | some bma =>
    obtain ⟨b, m, a⟩ := bma
    have hdecomp : s.data = b ++ m ++ a := searchAux_sound hsearch
    have hwf := parse_years_wellformed year (String.mk m)
    have hfix := fixYears_wf hyear hwf.1 hwf.2.1
    have hgnl : ∀ c ∈ genChars (fixYears year (parse_years_string year (String.mk m))),
        (c == '\n') = false := genChars_not_nl
    have hgt := genChars_ends_digit hfix.2.2.2
    obtain ⟨prev', htm'⟩ := searchAux_success hsearch
    obtain ⟨hmnl, hmt, _⟩ := tryMatchAt_m_props htm'
    have h1 : update_header_content year s = String.mk
        (b ++ (headerChars ++ genChars (fixYears year (parse_years_string year (String.mk m)))) ++ a) := by
      unfold update_header_content
      rw [hsearch]
    have hsearch1 : searchAux none (b ++ m ++ a) = some (b, m, a) := by
      rw [← hdecomp]
      exact hsearch
    have h2 : searchCopyright
        (b ++ (headerChars ++ genChars (fixYears year (parse_years_string year (String.mk m)))) ++ a)
        = some (b, headerChars ++ genChars (fixYears year (parse_years_string year (String.mk m))), a) :=
      searchAux_replace hgnl hgt hmnl hmt b none hsearch1
    have h3 : parse_years_string year (String.mk
        (headerChars ++ genChars (fixYears year (parse_years_string year (String.mk m)))))
        = fixYears year (parse_years_string year (String.mk m)) := by
      rw [parse_drops_header,
        show String.mk (genChars (fixYears year (parse_years_string year (String.mk m))))
          = generate_years_string (fixYears year (parse_years_string year (String.mk m))) from rfl]
      exact parse_generate_roundtrip year _ hfix.1 hfix.2.1
    have hfixstable : ∀ l : List Nat, l ≠ [] → l.getLast? = some year → fixYears year l = l := by
      intro l hne hlast
      have hnc : ¬(l = [] ∨ l.getLast? ≠ some year) := by
        push_neg
        exact ⟨hne, hlast⟩
      unfold fixYears
      rw [if_neg hnc]
    have h4 : fixYears year (fixYears year (parse_years_string year (String.mk m)))
        = fixYears year (parse_years_string year (String.mk m)) :=
      hfixstable _ hfix.2.2.2 hfix.2.2.1
    rw [h1]
    have h5 : update_header_content year (String.mk
        (b ++ (headerChars ++ genChars (fixYears year (parse_years_string year (String.mk m)))) ++ a))
        = String.mk (b ++ (headerChars ++ genChars (fixYears year (parse_years_string year (String.mk
            (headerChars ++ genChars (fixYears year (parse_years_string year (String.mk m)))))))) ++ a) := by
      unfold update_header_content
      rw [show (String.mk
          (b ++ (headerChars ++ genChars (fixYears year (parse_years_string year (String.mk m)))) ++ a)).data
        = b ++ (headerChars ++ genChars (fixYears year (parse_years_string year (String.mk m)))) ++ a
        from rfl, h2]
    rw [h5, h3, h4]

/-- Witness for C9 on the spec's end-to-end example content. -/
theorem update_header_idempotent_witness :
    1900 < 2024
    ∧ update_header_content 2024 (update_header_content 2024 "// Copyright 2019-2021 Arm\nbody\n")
        = update_header_content 2024 "// Copyright 2019-2021 Arm\nbody\n" :=
  ⟨by decide, update_header_idempotent 2024 "// Copyright 2019-2021 Arm\nbody\n" (by decide)⟩

/-- Witness for C3: the run-based characterization applied at the spec's
example list. -/
theorem generate_years_compaction_witness :
    generate_years_string [1991, 2001, 2002, 2003, 2006, 2007]
      = String.mk (renderRuns (runsOf [1991, 2001, 2002, 2003, 2006, 2007])) :=
  generate_years_compaction.1 [1991, 2001, 2002, 2003, 2006, 2007]

/-- Witness for C4: the bound applied to a concrete 25-line file. -/
theorem scan_bounded_witness :
    scanFile 2024 (splitLines ("a\nb\nc\nd\ne\nf\ng\nh\ni\nj\nk\nl\nm\nn\no\np\nq\nr\ns\nt\nu\nv\nw\nx\ny\n" : String).data)
      = scanFile 2024 ((splitLines ("a\nb\nc\nd\ne\nf\ng\nh\ni\nj\nk\nl\nm\nn\no\np\nq\nr\ns\nt\nu\nv\nw\nx\ny\n" : String).data).take (MAX_SEARCH_LINES + 1)) :=
  scan_bounded 2024 (splitLines ("a\nb\nc\nd\ne\nf\ng\nh\ni\nj\nk\nl\nm\nn\no\np\nq\nr\ns\nt\nu\nv\nw\nx\ny\n" : String).data)

/-- Witness for C5: on a one-file run that fails both checks the exit status
is 1, derived from the exit-status specification. -/
theorem driver_exit_spec_witness :
    (runDriver 2024 [(("f" : String), ("hello\n" : String))]).exitCode = 1 := by
  rcases (driver_exit_spec 2024 [("f", "hello\n")]).2.2.1 with h0 | h1
  · exfalso
    have hbad := ((driver_exit_spec 2024 [("f", "hello\n")]).1.mp h0).1
    exact absurd hbad (by decide)
  · exact h1

/-- Witness for C6: the parser output on a concrete messy input is strictly
ascending. -/
theorem parse_years_wellformed_witness :
    List.Pairwise (· < ·) (parse_years_string 2024 "x 1999, 2024-2021 77") :=
  (parse_years_wellformed 2024 "x 1999, 2024-2021 77").1

/-- Witness for C10 at the reversed range 2024-2020 with current year 2024. -/
theorem reversed_range_empty_witness :
    2020 < 2024 ∧ (1900 < 2024 ∧ 2024 ≤ 2024) ∧ (1900 < 2020 ∧ 2020 ≤ 2024)
    ∧ parse_years_string 2024 (String.mk (natDigits 2024 ++ '-' :: natDigits 2020)) = [] :=
  ⟨by decide, by decide, by decide,
    reversed_range_empty 2024 2024 2020 (by decide) (by decide) (by decide)⟩

end CheckCopyright
